import Mathlib

/-!
Shallow embedding of `src/app.py` (zappo_bot).

Python strings are modelled as `List Char`.  The character classes used by
the code (`\s`, `\w`, `[A-Z]`, `[a-zA-Z]`, Python `str.strip()`) are modelled
over their ASCII ranges, which is faithful for every input the claims talk
about.  Python's `set` has an unspecified iteration order; the embedding of
`extract_topics` fixes a deterministic order (first pattern, then scanning
order, deduplicated), and every verified property is order-insensitive.
-/

namespace ZappoBot

/-! ### Characters that are awkward as literals -/

def bslash : Char := Char.ofNat 92

def squote : Char := Char.ofNat 39

def dquote : Char := Char.ofNat 34

def lbrace : Char := Char.ofNat 123

def rbrace : Char := Char.ofNat 125

/-- The two quote characters stripped by `text.strip('"\'')` (app.py line 148). -/
def isQuoteCh (c : Char) : Bool := c == dquote || c == squote

/-- ASCII whitespace, as stripped by Python `str.strip()` and matched by `\s`. -/
def isSpaceCh (c : Char) : Bool :=
  c == ' ' || c == '\t' || c == '\n' || c == '\r' || c == Char.ofNat 11 || c == Char.ofNat 12

def isUpperCh (c : Char) : Bool := 'A' ≤ c && c ≤ 'Z'

def isLowerCh (c : Char) : Bool := 'a' ≤ c && c ≤ 'z'

/-- The regex class `[a-zA-Z]`. -/
def isAlphaCh (c : Char) : Bool := isUpperCh c || isLowerCh c

def isDigitCh (c : Char) : Bool := '0' ≤ c && c ≤ '9'

/-- The regex class `\w` (ASCII): letters, digits, underscore. -/
def isWordCh (c : Char) : Bool := isAlphaCh c || isDigitCh c || c == '_'

/-! ### Generic string helpers -/

/-- `startsWithL p s` : `s` begins with the pattern `p`. -/
def startsWithL : List Char → List Char → Bool
  | [], _ => true
  | _ :: _, [] => false
  | p :: ps, c :: cs => p == c && startsWithL ps cs

/-- `s.split(sep)[0]` for a nonempty separator `sep`: the part of `s` before
the first occurrence of `sep` (all of `s` if `sep` does not occur). -/
def takeUntilSub (sep : List Char) : List Char → List Char
  | [] => []
  | c :: cs => if startsWithL sep (c :: cs) then [] else c :: takeUntilSub sep cs

/-- Python `s.replace(a+b, r)` for a two-character pattern: left-to-right,
non-overlapping replacement of the pair `a, b` by the single character `r`. -/
def replace2 (a b r : Char) : List Char → List Char
  | [] => []
  | [c] => [c]
  | c :: d :: cs =>
    if c == a && d == b then r :: replace2 a b r cs
    else c :: replace2 a b r (d :: cs)

/-- Python `s.strip(chars)`: remove all leading and all trailing characters
satisfying `p`. -/
def stripBoth (p : Char → Bool) (s : List Char) : List Char :=
  List.rdropWhile p (List.dropWhile p s)

/-- Accumulator machine for `re.sub(r'\{.*?\}', '', s)` (app.py line 149).
`acc` is the reversed output; `some buf` means we are inside a candidate
brace group whose characters (starting with the opening brace) are `buf`,
reversed.  `.` does not match a newline, so a newline aborts the candidate
group; the first closing brace ends it and the whole group is dropped. -/
def rbAux : List Char → List Char → Option (List Char) → List Char
  | [], acc, none => acc.reverse
  | [], acc, some buf => acc.reverse ++ buf.reverse
  | c :: cs, acc, none =>
    if c == lbrace then rbAux cs acc (some [c])
    else rbAux cs (c :: acc) none
  | c :: cs, acc, some buf =>
    if c == rbrace then rbAux cs acc none
    else if c == '\n' then rbAux cs (c :: (buf ++ acc)) none
    else rbAux cs acc (some (c :: buf))

/-- `re.sub(r'\{.*?\}', '', s)`: remove every non-greedy brace-delimited
fragment (`.` does not match newline). -/
def removeBraces (s : List Char) : List Char := rbAux s [] none

/-- `re.sub(r'^content=[\'"]*', '', s)` (app.py line 142): if `s` starts with
`content=`, drop that marker and every quote character that follows it. -/
def stripContentMarker (s : List Char) : List Char :=
  if startsWithL ("content=".toList) s then
    (s.drop 8).dropWhile (fun c => c == squote || c == dquote)
  else s

def kwargsMarker : List Char := "additional_kwargs=".toList

def metaMarker : List Char := "response_metadata=".toList

/-- `TwitterBot.clean_text` (app.py lines 140-150), step by step:
strip a leading `content=` envelope marker, truncate at the metadata
markers, unescape `\n` `\t` `\'` `\"`, delete remaining backslashes,
strip surrounding quotes then surrounding whitespace, and finally delete
brace-delimited fragments. -/
def clean_text (text : List Char) : List Char :=
  let t1 := stripContentMarker text
  let t2 := takeUntilSub kwargsMarker t1
  let t3 := takeUntilSub metaMarker t2
  let t4 := replace2 bslash 'n' ' ' t3
  let t5 := replace2 bslash 't' ' ' t4
  let t6 := replace2 bslash squote squote t5
  let t7 := replace2 bslash dquote dquote t6
  let t8 := t7.filter (fun c => !(c == bslash))
  let t9 := stripBoth isQuoteCh t8
  let t10 := stripBoth isSpaceCh t9
  removeBraces t10

/-! ### Topic extraction (app.py lines 58-84) -/

/-- `True` when the previous character admits a `\b` word boundary before an
upcoming word character (start of string, or a non-word character). -/
def prevNonWord : Option Char → Bool
  | none => true
  | some c => !(isWordCh c)

/-- `True` when the character after a word admits a closing `\b`
(end of string, or a non-word character). -/
def endBoundary : List Char → Bool
  | [] => true
  | d :: _ => !(isWordCh d)

/-- `re.findall(r'\b[A-Z][a-zA-Z]+\b', s)`: every maximal run consisting of
an uppercase letter followed by at least one more letter, delimited by word
boundaries.  `prev` is the character before the current position. -/
def capMatches (prev : Option Char) : List Char → List (List Char)
  | [] => []
  | c :: cs =>
    if prevNonWord prev && isUpperCh c then
      match cs.takeWhile isAlphaCh with
      | [] => capMatches (some c) cs
      | r :: rs =>
        if endBoundary (cs.drop (r :: rs).length) then
          (c :: r :: rs) :: capMatches (some c) cs
        else capMatches (some c) cs
    else capMatches (some c) cs

/-- First marker of `markers` that `s` starts with (regex alternation order;
for the marker sets of app.py the first characters are pairwise distinct, so
at most one can apply at a given position). -/
def findMarker : List (List Char) → List Char → Option (List Char)
  | [], _ => none
  | m :: ms, s => if startsWithL m s then some m else findMarker ms s

/-- Try to match `(?:marker)\s+([A-Z][a-zA-Z]+)` at the start of `s`.
On success, return the captured group and the length of the full match. -/
def tryAfterMarker (markers : List (List Char)) (s : List Char) :
    Option (List Char × Nat) :=
  match findMarker markers s with
  | none => none
  | some m =>
    let rest := s.drop m.length
    match rest.takeWhile isSpaceCh with
    | [] => none
    | w :: ws =>
      match rest.drop (w :: ws).length with
      | [] => none
      | c :: cs2 =>
        if isUpperCh c then
          match cs2.takeWhile isAlphaCh with
          | [] => none
          | r :: rs =>
            some (c :: r :: rs, m.length + (w :: ws).length + 1 + (r :: rs).length)
        else none

/-- `re.findall(r'(?:markers)\s+([A-Z][a-zA-Z]+)', s)`: scan left to right;
a successful match is recorded and scanning resumes after the full match
(`skip` counts positions still covered by the previous match). -/
def markerMatches (markers : List (List Char)) : Nat → List Char → List (List Char)
  | _, [] => []
  | k+1, _ :: cs => markerMatches markers k cs
  | 0, c :: cs =>
    match tryAfterMarker markers (c :: cs) with
    | some (w, len) => w :: markerMatches markers (len - 1) cs
    | none => markerMatches markers 0 cs

def newsVerbs : List (List Char) :=
  ["says".toList, "announces".toList, "confirms".toList, "reports".toList]

def newsPreps : List (List Char) := ["in".toList, "at".toList, "by".toList]

/-- Python `' '.join(xs)`. -/
def joinSp : List (List Char) → List Char
  | [] => []
  | [x] => x
  | x :: y :: t => x ++ ' ' :: joinSp (y :: t)

/-- The hashtag list built by `extract_topics`: union of the three pattern
match lists (deduplicated, standing in for the Python `set`), keeping only
topics longer than 2 characters, each prefixed with `#`. -/
def hashtagList (title description : List Char) : List (List Char) :=
  let full_text := title ++ ' ' :: description
  let ms := capMatches none full_text
      ++ markerMatches newsVerbs 0 full_text
      ++ markerMatches newsPreps 0 full_text
  (ms.dedup.filter (fun w => 2 < w.length)).map (fun w => '#' :: w)

/-- `TwitterBot.extract_topics` (app.py lines 58-84). -/
def extract_topics (title description : List Char) : List Char :=
  match hashtagList title description with
  | [] => "GeneralNews".toList
  | h :: hs => joinSp (h :: hs)

/-! ### News fetcher (app.py lines 86-138) -/

/-- One element of the `articles` array of the news-source response.
A missing or null field is modelled as the empty string, which is what
`article.get(key, '')` yields for truthiness purposes. -/
structure Article where
  title : List Char
  description : List Char
  url : List Char
  publishedAt : List Char
deriving DecidableEq, Repr

/-- Outcome of the HTTP request in `get_trending_news`: either some
exception was raised during request or response handling, or a response
with a status code and a parsed `articles` array arrived. -/
inductive FetchOutcome where
  | exc : List Char → FetchOutcome
  | resp : Nat → List Article → FetchOutcome
deriving DecidableEq, Repr

/-- The `news_context` dict built for each kept article. -/
structure NewsItem where
  title : List Char
  description : List Char
  url : List Char
  published_at : List Char
  topics : List Char
  full_context : List Char
  timestamp : List Char
deriving DecidableEq, Repr

/-- The `news_context` dict for one article (`ts` is the formatted
`datetime.now()` string). -/
def mkNewsItem (ts : List Char) (a : Article) : NewsItem :=
  { title := a.title
    description := a.description
    url := a.url
    published_at := a.publishedAt
    topics := extract_topics a.title a.description
    full_context := a.title ++ '\n' :: '\n' :: a.description
    timestamp := ts }

/-- `TwitterBot.get_trending_news` (app.py lines 86-138): on an exception or
a non-200 status, log and return `[]`; on a 200 response, keep the articles
with nonempty title and description, build their contexts, and return at
most `limit` of them. -/
def get_trending_news (limit : Nat) (ts : List Char) (o : FetchOutcome) :
    List NewsItem :=
  match o with
  | .exc _ => []
  | .resp status articles =>
    if status = 200 then
      ((articles.filter
          (fun a => !a.title.isEmpty && !a.description.isEmpty)).map
        (mkNewsItem ts)).take limit
    else []

/-! ### Generator, publisher, scheduler (app.py lines 152-249) -/

/-- Error values: the string representation of a raised Python exception. -/
abbrev Err : Type := List Char

/-- The generation backend's response envelope: either an object exposing a
`content` field, or any other value, which is stringified. -/
inductive LLMResponse where
  | obj : List Char → LLMResponse
  | plain : List Char → LLMResponse
deriving DecidableEq, Repr

/-- Lines 165-170 of app.py: take `response.content` when present,
otherwise the stringified response. -/
def extractContent : LLMResponse → List Char
  | .obj c => c
  | .plain s => s

/-- `TwitterBot.generate_tweet` (app.py lines 152-177): invoke the backend
(whose behaviour is the `resp` argument), extract the textual payload and
sanitize it; a backend exception is logged and re-raised. -/
def generate_tweet (item : NewsItem) (resp : Except Err LLMResponse) :
    Except Err (List Char) :=
  match item, resp with
  | _, .error e => .error e
  | _, .ok r => .ok (clean_text (extractContent r))

/-- `TwitterBot.post_tweet` (app.py lines 179-189): re-sanitize the text and
hand it to the posting backend `createTweet`; a backend exception is logged
and re-raised. -/
def post_tweet (createTweet : List Char → Except Err (List Char))
    (tweet_text : List Char) : Except Err (List Char) :=
  createTweet (clean_text tweet_text)

/-- The external world of one pipeline invocation: the fetch outcome, the
index selected by `random.choice`, the generation backend's behaviour, the
posting backend's behaviour, and the formatted current time. -/
structure PipelineEnv where
  fetch : FetchOutcome
  pickIdx : Nat
  llm : Except Err LLMResponse
  postB : List Char → Except Err (List Char)
  ts : List Char

/-- `TwitterBot.tweet_about_trend` (app.py lines 191-215): fetch up to five
items; with no items, log and return normally; otherwise pick one item,
generate and post.  Any exception is logged and re-raised. -/
def tweet_about_trend (env : PipelineEnv) : Except Err (Option (List Char)) :=
  match get_trending_news 5 env.ts env.fetch with
  | [] => .ok none
  | n :: ns =>
    let items := n :: ns
    let item := items.get ⟨env.pickIdx % items.length, Nat.mod_lt _ (Nat.succ_pos _)⟩
    match generate_tweet item env.llm with
    | .error e => .error e
    | .ok tweet =>
      match post_tweet env.postB tweet with
      | .error e => .error e
      | .ok r => .ok (some r)

/-- One scheduled invocation's external world: `initErr` models
`TwitterBot()` raising during client initialization. -/
structure Invocation where
  initErr : Option Err
  env : PipelineEnv

/-- `run_bot` (app.py lines 217-240): run one invocation; every exception is
caught at this boundary and logged.  The returned string is the final log
line, and the function is total: no error value escapes. -/
def run_bot (inv : Invocation) : List Char :=
  match inv.initErr with
  | some e => "Scheduled execution failed: ".toList ++ e
  | none =>
    match tweet_about_trend inv.env with
    | .error e => "Scheduled execution failed: ".toList ++ e
    | .ok _ => "Next tweet will be in 40 minutes...".toList

/-- `main` (app.py lines 242-249): the scheduler loop runs `run_bot` once
per scheduled tick, forever.  A run of the loop over any finite schedule of
invocation environments is its trace of log lines. -/
def main (invs : List Invocation) : List (List Char) :=
  invs.map run_bot

/-- A character that none of the sanitizer's pattern substitutions can act
on: not a backslash, a quote, an opening brace, or the `=` that every
envelope marker contains. -/
def inertCh (c : Char) : Bool :=
  !(c == bslash || c == squote || c == dquote || c == lbrace || c == '=')

/-! ### Generic lemmas about the string helpers -/

theorem startsWithL_mem : ∀ (p s : List Char), startsWithL p s = true →
    ∀ c ∈ p, c ∈ s
  | [], _, _, c, hc => absurd hc (List.not_mem_nil c)
  | _ :: _, [], h, _, _ => by simp [startsWithL] at h
  | p :: ps, a :: as, h, c, hc => by
    simp only [startsWithL, Bool.and_eq_true, beq_iff_eq] at h
    rcases List.mem_cons.1 hc with rfl | hc
    · exact h.1 ▸ List.mem_cons_self _ _
    · exact List.mem_cons_of_mem _ (startsWithL_mem ps as h.2 c hc)

theorem takeUntilSub_eq_self (sep : List Char) (c0 : Char) (hc0 : c0 ∈ sep) :
    ∀ (s : List Char), c0 ∉ s → takeUntilSub sep s = s
  | [], _ => rfl
  | c :: cs, h => by
    have hsw : startsWithL sep (c :: cs) = false := by
      cases hsw : startsWithL sep (c :: cs) with
      | false => rfl
      | true => exact absurd (startsWithL_mem sep (c :: cs) hsw c0 hc0) h
    simp only [takeUntilSub, hsw, if_neg Bool.false_ne_true, Bool.false_eq_true,
      if_false, List.cons.injEq, true_and]
    exact takeUntilSub_eq_self sep c0 hc0 cs (fun hm => h (List.mem_cons_of_mem _ hm))

theorem replace2_eq_self (a b r : Char) : ∀ (s : List Char), a ∉ s →
    replace2 a b r s = s
  | [], _ => rfl
  | [_], _ => rfl
  | c :: d :: cs, h => by
    have hca : (c == a) = false := by
      simp only [beq_eq_false_iff_ne, ne_eq]
      rintro rfl; exact h (List.mem_cons_self _ _)
    simp only [replace2, hca, Bool.false_and, Bool.false_eq_true, if_false,
      List.cons.injEq, true_and]
    exact replace2_eq_self a b r (d :: cs) (fun hm => h (List.mem_cons_of_mem _ hm))

theorem stripBoth_eq_self {p : Char → Bool} {s : List Char}
    (h : ∀ c ∈ s, p c = false) : stripBoth p s = s := by
  have hdw : List.dropWhile p s = s := by
    cases s with
    | nil => rfl
    | cons c cs => simp [List.dropWhile_cons, h c (List.mem_cons_self _ _)]
  unfold stripBoth
  rw [hdw]
  exact List.rdropWhile_eq_self_iff.2 fun hl => by
    simp [h _ (List.getLast_mem hl)]

theorem mem_stripBoth {p : Char → Bool} {s : List Char} {c : Char}
    (hc : c ∈ stripBoth p s) : c ∈ s := by
  unfold stripBoth List.rdropWhile at hc
  rw [List.mem_reverse] at hc
  have h2 := List.dropWhile_subset p hc
  rw [List.mem_reverse] at h2
  exact List.dropWhile_subset p h2

theorem dropWhile_head_false {p : Char → Bool} :
    ∀ {s : List Char} {c : Char} {t : List Char},
      List.dropWhile p s = c :: t → p c = false
  | [], _, _, h => by simp at h
  | a :: as, c, t, h => by
    rw [List.dropWhile_cons] at h
    by_cases ha : p a = true
    · rw [if_pos ha] at h
      exact dropWhile_head_false h
    · rw [if_neg ha] at h
      cases h
      simpa using ha

theorem dropWhile_stripBoth (p : Char → Bool) (s : List Char) :
    List.dropWhile p (stripBoth p s) = stripBoth p s := by
  unfold stripBoth
  cases hu : List.dropWhile p s with
  | nil => simp [List.rdropWhile]
  | cons c t =>
    have hc : p c = false := dropWhile_head_false hu
    rw [List.rdropWhile, List.reverse_cons, List.dropWhile_append]
    cases hw : List.dropWhile p t.reverse with
    | nil => simp [List.dropWhile_cons, hc]
    | cons d e => simp [List.dropWhile_cons, hc]

theorem stripBoth_idem (p : Char → Bool) (s : List Char) :
    stripBoth p (stripBoth p s) = stripBoth p s := by
  conv_lhs => rw [stripBoth, dropWhile_stripBoth]
  rw [stripBoth, List.rdropWhile_idempotent]

theorem stripBoth_cons_pos {p : Char → Bool} {q : Char} (hq : p q = true)
    (s : List Char) : stripBoth p (q :: s) = stripBoth p s := by
  unfold stripBoth
  rw [List.dropWhile_cons, if_pos hq]

theorem stripBoth_concat_pos {p : Char → Bool} {q : Char} (hq : p q = true)
    (s : List Char) : stripBoth p (s ++ [q]) = stripBoth p s := by
  unfold stripBoth
  rw [List.dropWhile_append]
  by_cases he : (List.dropWhile p s).isEmpty
  · simp only [he, if_true]
    rw [List.isEmpty_iff.1 he]
    simp [List.dropWhile_cons, hq, List.rdropWhile]
  · simp only [he, if_false]
    exact List.rdropWhile_concat_pos p _ q hq

/-! ### The sanitizer's stages are the identity on inert text -/

theorem stripContentMarker_eq_self {s : List Char} (h : '=' ∉ s) :
    stripContentMarker s = s := by
  have hsw : startsWithL ("content=".toList) s = false := by
    cases hsw : startsWithL ("content=".toList) s with
    | false => rfl
    | true =>
      exact absurd (startsWithL_mem _ s hsw '=' (by decide)) h
  simp only [stripContentMarker, hsw, Bool.false_eq_true, if_false]

theorem rbAux_no_lbrace : ∀ {s : List Char}, ∀ (acc : List Char),
    lbrace ∉ s → rbAux s acc none = acc.reverse ++ s
  | [], acc, _ => by simp [rbAux]
  | c :: cs, acc, h => by
    have hc : (c == lbrace) = false := by
      simp only [beq_eq_false_iff_ne, ne_eq]
      rintro rfl; exact h (List.mem_cons_self _ _)
    rw [rbAux]
    simp only [hc, Bool.false_eq_true, if_false]
    rw [rbAux_no_lbrace (c :: acc) (fun hm => h (List.mem_cons_of_mem _ hm))]
    simp

theorem removeBraces_eq_self {s : List Char} (h : lbrace ∉ s) :
    removeBraces s = s := by
  rw [removeBraces, rbAux_no_lbrace [] h, List.reverse_nil, List.nil_append]

/-- On text whose characters are all inert, `clean_text` only strips the
surrounding whitespace. -/
theorem clean_text_eq_strip_of_inert {x : List Char}
    (h : ∀ c ∈ x, inertCh c = true) : clean_text x = stripBoth isSpaceCh x := by
  have hne : ∀ (a : Char), (a == bslash || a == squote || a == dquote ||
      a == lbrace || a == '=') = true → a ∉ x := by
    intro a ha hm
    have := h a hm
    rw [inertCh, ha] at this
    simp at this
  have hbs : bslash ∉ x := hne bslash (by simp)
  have hsq : squote ∉ x := hne squote (by simp)
  have hdq : dquote ∉ x := hne dquote (by simp)
  have hlb : lbrace ∉ x := hne lbrace (by simp)
  have heq : '=' ∉ x := hne '=' (by simp)
  have hq : ∀ c ∈ x, isQuoteCh c = false := by
    intro c hc
    cases hqc : isQuoteCh c with
    | false => rfl
    | true =>
      rw [isQuoteCh] at hqc
      rcases Bool.or_eq_true_iff.1 hqc with h1 | h1 <;> rw [beq_iff_eq] at h1
      · exact absurd (h1 ▸ hc) hdq
      · exact absurd (h1 ▸ hc) hsq
  rw [clean_text]
  rw [stripContentMarker_eq_self heq]
  rw [takeUntilSub_eq_self kwargsMarker '=' (by decide) x heq]
  rw [takeUntilSub_eq_self metaMarker '=' (by decide) x heq]
  rw [replace2_eq_self bslash 'n' ' ' x hbs]
  rw [replace2_eq_self bslash 't' ' ' x hbs]
  rw [replace2_eq_self bslash squote squote x hbs]
  rw [replace2_eq_self bslash dquote dquote x hbs]
  rw [List.filter_eq_self.2 (fun a ha => by
    simp only [Bool.not_eq_eq_eq_not, Bool.not_true, beq_eq_false_iff_ne, ne_eq]
    rintro rfl; exact hbs ha)]
  rw [stripBoth_eq_self hq]
  exact removeBraces_eq_self fun hm => hlb (mem_stripBoth hm)

/-- On text whose characters are all inert and non-whitespace, `clean_text`
is the identity. -/
theorem clean_text_eq_self_of_plain {x : List Char}
    (h : ∀ c ∈ x, inertCh c = true ∧ isSpaceCh c = false) : clean_text x = x := by
  rw [clean_text_eq_strip_of_inert (fun c hc => (h c hc).1)]
  exact stripBoth_eq_self (fun c hc => (h c hc).2)

/-! ### Length bounds: every sanitizer stage is non-increasing -/

theorem takeUntilSub_length (sep : List Char) :
    ∀ (s : List Char), (takeUntilSub sep s).length ≤ s.length
  | [] => Nat.le_refl _
  | c :: cs => by
    rw [takeUntilSub]
    split
    · simp
    · have := takeUntilSub_length sep cs
      simp only [List.length_cons]
      omega

theorem replace2_length (a b r : Char) :
    ∀ (s : List Char), (replace2 a b r s).length ≤ s.length
  | [] => Nat.le_refl _
  | [_] => Nat.le_refl _
  | c :: d :: cs => by
    rw [replace2]
    split
    · have := replace2_length a b r cs
      simp only [List.length_cons]
      omega
    · have := replace2_length a b r (d :: cs)
      simp only [List.length_cons] at *
      omega

theorem rbAux_length : ∀ (s acc : List Char) (pend : Option (List Char)),
    (rbAux s acc pend).length ≤ s.length + acc.length + (pend.getD []).length
  | [], acc, none => by simp [rbAux]
  | [], acc, some buf => by simp [rbAux]
  | c :: cs, acc, none => by
    rw [rbAux]
    split
    · have := rbAux_length cs acc (some [c])
      simp only [List.length_cons, List.length_nil, List.length_append, Option.getD_some, Option.getD_none] at *
      omega
    · have := rbAux_length cs (c :: acc) none
      simp only [List.length_cons, List.length_nil, List.length_append, Option.getD_some, Option.getD_none] at *
      omega
  | c :: cs, acc, some buf => by
    rw [rbAux]
    split
    · have := rbAux_length cs acc none
      simp only [List.length_cons, List.length_nil, List.length_append, Option.getD_some, Option.getD_none] at *
      omega
    · split
      · have := rbAux_length cs (c :: (buf ++ acc)) none
        simp only [List.length_cons, List.length_nil, List.length_append, Option.getD_some, Option.getD_none] at *
        omega
      · have := rbAux_length cs acc (some (c :: buf))
        simp only [List.length_cons, List.length_nil, List.length_append, Option.getD_some, Option.getD_none] at *
        omega

theorem removeBraces_length (s : List Char) :
    (removeBraces s).length ≤ s.length := by
  have := rbAux_length s [] none
  simpa [removeBraces] using this

theorem stripBoth_length (p : Char → Bool) (s : List Char) :
    (stripBoth p s).length ≤ s.length := by
  unfold stripBoth List.rdropWhile
  calc ((List.dropWhile p (List.dropWhile p s).reverse).reverse).length
      = (List.dropWhile p (List.dropWhile p s).reverse).length := List.length_reverse _
    _ ≤ (List.dropWhile p s).reverse.length :=
        (List.dropWhile_sublist p).length_le
    _ = (List.dropWhile p s).length := List.length_reverse _
    _ ≤ s.length := (List.dropWhile_sublist p).length_le

theorem stripContentMarker_length (s : List Char) :
    (stripContentMarker s).length ≤ s.length := by
  rw [stripContentMarker]
  split
  · calc ((s.drop 8).dropWhile (fun c => c == squote || c == dquote)).length
        ≤ (s.drop 8).length := (List.dropWhile_sublist _).length_le
      _ ≤ s.length := by rw [List.length_drop]; omega
  · exact Nat.le_refl _

theorem clean_text_length (x : List Char) : (clean_text x).length ≤ x.length := by
  rw [clean_text]
  refine le_trans (removeBraces_length _) ?_
  refine le_trans (stripBoth_length _ _) ?_
  refine le_trans (stripBoth_length _ _) ?_
  refine le_trans (List.length_filter_le _ _) ?_
  refine le_trans (replace2_length _ _ _ _) ?_
  refine le_trans (replace2_length _ _ _ _) ?_
  refine le_trans (replace2_length _ _ _ _) ?_
  refine le_trans (replace2_length _ _ _ _) ?_
  refine le_trans (takeUntilSub_length _ _) ?_
  refine le_trans (takeUntilSub_length _ _) ?_
  exact stripContentMarker_length x

/-! ### Lemmas about the topic extractor -/

theorem capMatches_cons (prev : Option Char) (c : Char) (cs : List Char) :
    capMatches prev (c :: cs) =
      if prevNonWord prev && isUpperCh c then
        match cs.takeWhile isAlphaCh with
        | [] => capMatches (some c) cs
        | r :: rs =>
          if endBoundary (cs.drop (r :: rs).length) then
            (c :: r :: rs) :: capMatches (some c) cs
          else capMatches (some c) cs
      else capMatches (some c) cs := rfl

theorem capMatches_eq_nil : ∀ (s : List Char),
    (∀ c ∈ s, isUpperCh c = false) → ∀ (prev : Option Char),
      capMatches prev s = []
  | [], _, _ => rfl
  | c :: cs, h, prev => by
    have hc : isUpperCh c = false := h c (List.mem_cons_self _ _)
    have ih := capMatches_eq_nil cs (fun a ha => h a (List.mem_cons_of_mem _ ha))
    rw [capMatches_cons]
    simp only [hc, Bool.and_false, Bool.false_eq_true, if_false]
    exact ih _

theorem capMatches_shape : ∀ (s : List Char) (prev : Option Char)
    (w : List Char), w ∈ capMatches prev s →
      ∃ c r rs, w = c :: r :: rs ∧ isUpperCh c = true ∧
        ∀ a ∈ r :: rs, isAlphaCh a = true
  | [], _, _, hw => absurd hw (List.not_mem_nil _)
  | c :: cs, prev, w, hw => by
    rw [capMatches_cons] at hw
    by_cases hcond : (prevNonWord prev && isUpperCh c) = true
    · rw [if_pos hcond] at hw
      cases htw : cs.takeWhile isAlphaCh with
      | nil =>
        simp only [htw] at hw
        exact capMatches_shape cs (some c) w hw
      | cons r rs =>
        simp only [htw] at hw
        by_cases hb : endBoundary (cs.drop (r :: rs).length) = true
        · rw [if_pos hb] at hw
          rcases List.mem_cons.1 hw with rfl | hw
          · have hcu : prevNonWord prev = true ∧ isUpperCh c = true := by
              simpa using hcond
            refine ⟨c, r, rs, rfl, hcu.2, ?_⟩
            intro a ha
            exact List.mem_takeWhile_imp (htw ▸ ha)
          · exact capMatches_shape cs (some c) w hw
        · rw [if_neg hb] at hw
          exact capMatches_shape cs (some c) w hw
    · rw [if_neg hcond] at hw
      exact capMatches_shape cs (some c) w hw

theorem tryAfterMarker_spec {ms : List (List Char)} {s : List Char}
    {q : List Char × Nat} (hp : tryAfterMarker ms s = some q) :
    ∃ c r rs, q.1 = c :: r :: rs ∧ isUpperCh c = true ∧
      (∀ a ∈ r :: rs, isAlphaCh a = true) ∧ c ∈ s := by
  rw [tryAfterMarker] at hp
  cases hf : findMarker ms s with
  | none => rw [hf] at hp; exact absurd hp (by simp)
  | some m =>
    rw [hf] at hp
    simp only [] at hp
    cases htw : (s.drop m.length).takeWhile isSpaceCh with
    | nil =>
      simp only [htw] at hp
      exact Option.noConfusion hp
    | cons wc ws =>
      simp only [htw] at hp
      cases hdr : (s.drop m.length).drop (wc :: ws).length with
      | nil =>
        simp only [hdr] at hp
        exact Option.noConfusion hp
      | cons c cs2 =>
        simp only [hdr] at hp
        by_cases hu : isUpperCh c = true
        · rw [if_pos hu] at hp
          cases hta : cs2.takeWhile isAlphaCh with
          | nil =>
            simp only [hta] at hp
            exact Option.noConfusion hp
          | cons r rs =>
            simp only [hta] at hp
            have hq := Option.some.inj hp
            refine ⟨c, r, rs, by rw [← hq], hu, ?_, ?_⟩
            · intro a ha
              exact List.mem_takeWhile_imp (hta ▸ ha)
            · have h1 : c ∈ (s.drop m.length).drop (wc :: ws).length := by
                rw [hdr]; exact List.mem_cons_self _ _
              exact List.mem_of_mem_drop (List.mem_of_mem_drop h1)
        · rw [if_neg hu] at hp
          exact absurd hp (by simp)

theorem markerMatches_shape (ms : List (List Char)) :
    ∀ (s : List Char) (k : Nat) (w : List Char), w ∈ markerMatches ms k s →
      ∃ c r rs, w = c :: r :: rs ∧ isUpperCh c = true ∧
        ∀ a ∈ r :: rs, isAlphaCh a = true
  | [], k, w, hw => by
    cases k <;> exact absurd hw (List.not_mem_nil _)
  | c :: cs, k+1, w, hw => markerMatches_shape ms cs k w hw
  | c :: cs, 0, w, hw => by
    rw [markerMatches] at hw
    cases hta : tryAfterMarker ms (c :: cs) with
    | none =>
      simp only [hta] at hw
      exact markerMatches_shape ms cs 0 w hw
    | some q =>
      simp only [hta] at hw
      rcases List.mem_cons.1 hw with rfl | hw
      · obtain ⟨c0, r, rs, hq, hu, ha, _⟩ := tryAfterMarker_spec hta
        exact ⟨c0, r, rs, hq, hu, ha⟩
      · exact markerMatches_shape ms cs (q.2 - 1) w hw

theorem markerMatches_eq_nil (ms : List (List Char)) :
    ∀ (s : List Char), (∀ c ∈ s, isUpperCh c = false) → ∀ (k : Nat),
      markerMatches ms k s = []
  | [], _, k => by cases k <;> rfl
  | c :: cs, h, k+1 =>
    markerMatches_eq_nil ms cs (fun a ha => h a (List.mem_cons_of_mem _ ha)) k
  | c :: cs, h, 0 => by
    rw [markerMatches]
    cases hta : tryAfterMarker ms (c :: cs) with
    | none =>
      exact markerMatches_eq_nil ms cs
        (fun a ha => h a (List.mem_cons_of_mem _ ha)) 0
    | some q =>
      obtain ⟨c0, r, rs, _, hu, _, hc0⟩ := tryAfterMarker_spec hta
      rw [h c0 hc0] at hu
      exact absurd hu (by simp)

theorem hashtagList_eq_nil {t d : List Char}
    (ht : ∀ c ∈ t, isUpperCh c = false) (hd : ∀ c ∈ d, isUpperCh c = false) :
    hashtagList t d = [] := by
  have hfull : ∀ c ∈ t ++ ' ' :: d, isUpperCh c = false := by
    intro c hc
    rcases List.mem_append.1 hc with hc | hc
    · exact ht c hc
    · rcases List.mem_cons.1 hc with rfl | hc
      · decide
      · exact hd c hc
  rw [hashtagList]
  simp only [capMatches_eq_nil _ hfull none, markerMatches_eq_nil _ _ hfull 0,
    List.append_nil, List.nil_append, List.dedup_nil, List.filter_nil,
    List.map_nil]

theorem hashtagList_shape {t d h : List Char} (hh : h ∈ hashtagList t d) :
    ∃ c w, h = '#' :: c :: w ∧ isUpperCh c = true ∧
      (∀ a ∈ w, isAlphaCh a = true) ∧ 2 < (c :: w).length := by
  rw [hashtagList] at hh
  simp only [List.mem_map, List.mem_filter] at hh
  obtain ⟨w0, ⟨hw0mem, hw0len⟩, rfl⟩ := hh
  have hlen : 2 < w0.length := of_decide_eq_true hw0len
  have hw0 : w0 ∈ capMatches none (t ++ ' ' :: d)
      ++ markerMatches newsVerbs 0 (t ++ ' ' :: d)
      ++ markerMatches newsPreps 0 (t ++ ' ' :: d) := List.mem_dedup.1 hw0mem
  have hshape : ∃ c r rs, w0 = c :: r :: rs ∧ isUpperCh c = true ∧
      ∀ a ∈ r :: rs, isAlphaCh a = true := by
    rcases List.mem_append.1 hw0 with hw1 | hw1
    · rcases List.mem_append.1 hw1 with hw2 | hw2
      · exact capMatches_shape _ _ _ hw2
      · exact markerMatches_shape _ _ _ _ hw2
    · exact markerMatches_shape _ _ _ _ hw1
  obtain ⟨c, r, rs, rfl, hu, ha⟩ := hshape
  exact ⟨c, r :: rs, rfl, hu, ha, hlen⟩

/-! ### Claim C1 (Publisher truncation) -/

/-- Claim C1, counterexample: for the 281-character input `aaa…a` (longer
than 280 units), the text submitted to the posting backend is the input
itself, of length 281, not a 280-unit truncation: `post_tweet` performs no
length-based truncation at all. -/
theorem post_tweet_no_trunc_cex :
    280 < (List.replicate 281 'a').length ∧
    post_tweet Except.ok (List.replicate 281 'a') =
      Except.ok (List.replicate 281 'a') ∧
    ∀ r : List Char,
      post_tweet Except.ok (List.replicate 281 'a') = Except.ok r →
      r.length ≠ 280 := by
  have hid : clean_text (List.replicate 281 'a') = List.replicate 281 'a' :=
    clean_text_eq_self_of_plain fun c hc => by
      rw [List.eq_of_mem_replicate hc]
      exact ⟨by decide, by decide⟩
  refine ⟨by rw [List.length_replicate]; omega, ?_, ?_⟩
  · rw [post_tweet, hid]
  · intro r hr
    rw [post_tweet, hid] at hr
    cases hr
    rw [List.length_replicate]
    omega

/-- Claim C1, amended: the Publisher applies no length ceiling.  Whenever
the sanitized text exceeds 280 units, `post_tweet` submits it to the posting
backend at its full length, with no truncation and no ellipsis marker. -/
theorem post_tweet_no_truncation (t : List Char)
    (h : 280 < (clean_text t).length) :
    ∃ u, post_tweet Except.ok t = Except.ok u ∧ 280 < u.length :=
  ⟨clean_text t, rfl, h⟩

/-- Witness for `post_tweet_no_truncation` at the concrete input `aaa…a`
(281 characters). -/
theorem post_tweet_no_truncation_witness :
    ∃ u, post_tweet Except.ok (List.replicate 281 'a') = Except.ok u ∧
      280 < u.length :=
  post_tweet_no_truncation _ (by
    rw [clean_text_eq_self_of_plain fun c hc => by
      rw [List.eq_of_mem_replicate hc]
      exact ⟨by decide, by decide⟩]
    rw [List.length_replicate]
    omega)

/-! ### Claim C2 (sanitizer idempotence) -/

/-- Claim C2, counterexample: `clean_text` is not idempotent.  On the input
`a {b}` the first pass removes the brace group and leaves the trailing
space (`a `), and only a second pass strips that space. -/
theorem clean_text_not_idempotent :
    clean_text (clean_text ("a ".toList ++ [lbrace, 'b', rbrace])) ≠
      clean_text ("a ".toList ++ [lbrace, 'b', rbrace]) := by decide

/-- Claim C2, amended: `clean_text` is idempotent on inputs containing none
of the sanitizer's trigger characters (backslash, single or double quote,
opening brace, and the `=` of the envelope markers); in general a second
application can change the text further, because brace removal runs last
and can expose new surrounding whitespace, quotes or markers. -/
theorem clean_text_idem_of_inert (x : List Char)
    (h : ∀ c ∈ x, inertCh c = true) :
    clean_text (clean_text x) = clean_text x := by
  rw [clean_text_eq_strip_of_inert h]
  rw [clean_text_eq_strip_of_inert (fun c hc => h c (mem_stripBoth hc))]
  exact stripBoth_idem _ _

/-- Witness for `clean_text_idem_of_inert` at the concrete input
`"  hello  "`. -/
theorem clean_text_idem_of_inert_witness :
    clean_text (clean_text "  hello  ".toList) = clean_text "  hello  ".toList :=
  clean_text_idem_of_inert _ (by decide)

/-! ### Claim C3 (quote stripping) -/

/-- Claim C3, counterexample: step 5 does not strip a single quote layer.
On input `''abc''` (steps 1-4 leave it unchanged) the code strips *all*
surrounding quotes, returning `abc`, not `'abc'` as the claim predicts. -/
theorem clean_text_quote_layers_cex :
    clean_text ([squote, squote] ++ "abc".toList ++ [squote, squote]) =
      "abc".toList ∧
    ("abc".toList : List Char) ≠ [squote] ++ "abc".toList ++ [squote] := by
  decide

/-- Claim C3, amended: the quote-stripping step (`text.strip('"\'')` of
app.py line 148, embedded as `stripBoth isQuoteCh`) removes *every* layer of
surrounding quote characters, not just one: wrapping the text in one more
(not necessarily matching) pair of quote characters yields the same result. -/
theorem strip_removes_all_quote_layers (q1 q2 : Char) (s : List Char)
    (h1 : isQuoteCh q1 = true) (h2 : isQuoteCh q2 = true) :
    stripBoth isQuoteCh (q1 :: (s ++ [q2])) = stripBoth isQuoteCh s := by
  rw [stripBoth_cons_pos h1, stripBoth_concat_pos h2]

/-- Witness for `strip_removes_all_quote_layers` at a concrete doubly-quoted
input. -/
theorem strip_removes_all_quote_layers_witness :
    stripBoth isQuoteCh
        (squote :: (([squote] ++ "abc".toList ++ [dquote]) ++ [dquote])) =
      stripBoth isQuoteCh ([squote] ++ "abc".toList ++ [dquote]) :=
  strip_removes_all_quote_layers squote dquote _ (by decide) (by decide)

/-! ### Claim C4 (sanitizer totality) -/

/-- Claim C4: `clean_text` is a total function on strings.  In this
embedding every stage is a total structurally recursive function, so
`clean_text` returns a string for every input; in addition its output never
exceeds the input in length, and it evaluates normally on the claim's
stress inputs: the empty string, pure whitespace, and unbalanced braces. -/
theorem clean_text_total :
    (∀ x : List Char, (clean_text x).length ≤ x.length) ∧
    clean_text [] = [] ∧
    clean_text "   ".toList = [] ∧
    clean_text [lbrace, 'a', lbrace] = [lbrace, 'a', lbrace] :=
  ⟨clean_text_length, by decide, by decide, by decide⟩

/-! ### Claim C10 (Publisher re-sanitizes) -/

/-- Claim C10: `post_tweet` hands the posting backend `clean_text t`, never
`t` itself; in particular a not-yet-sanitized input (here `'hi'` in quotes)
is not posted verbatim. -/
theorem post_tweet_resanitizes :
    (∀ (f : List Char → Except Err (List Char)) (t : List Char),
        post_tweet f t = f (clean_text t)) ∧
    post_tweet Except.ok ([squote] ++ "hi".toList ++ [squote]) =
      Except.ok "hi".toList ∧
    ([squote] ++ "hi".toList ++ [squote] : List Char) ≠ "hi".toList :=
  ⟨fun _ _ => rfl,
   congrArg Except.ok (by decide :
     clean_text ([squote] ++ "hi".toList ++ [squote]) = "hi".toList),
   by decide⟩

/-! ### Claim C5 (News Fetcher failure policy) -/

/-- Claim C5: `get_trending_news` returns the empty list both when an
exception occurs during the request or response handling and when the
source responds with any non-200 status; no error propagates. -/
theorem get_trending_news_failure_empty :
    (∀ (limit : Nat) (ts msg : List Char),
        get_trending_news limit ts (.exc msg) = []) ∧
    ∀ (limit : Nat) (ts : List Char) (status : Nat) (articles : List Article),
      status ≠ 200 → get_trending_news limit ts (.resp status articles) = [] :=
  ⟨fun _ _ _ => rfl,
   fun _ _ status articles h => by
    rw [get_trending_news]
    exact if_neg h⟩

/-- Witness for `get_trending_news_failure_empty` at an HTTP 500 response
carrying a well-formed article. -/
theorem get_trending_news_failure_empty_witness :
    get_trending_news 5 []
      (.resp 500 [⟨"T".toList, "D".toList, "u".toList, "p".toList⟩]) = [] :=
  get_trending_news_failure_empty.2 5 [] 500 _ (by omega)

/-! ### Claim C6 (NewsItem field invariant) -/

/-- Claim C6: every `NewsItem` returned by `get_trending_news` has a
nonempty title and a nonempty description; articles with an empty or
missing title or description are excluded. -/
theorem get_trending_news_nonempty_fields (limit : Nat) (ts : List Char)
    (o : FetchOutcome) (item : NewsItem)
    (hm : item ∈ get_trending_news limit ts o) :
    item.title ≠ [] ∧ item.description ≠ [] := by
  cases o with
  | exc msg => exact absurd hm (List.not_mem_nil _)
  | resp status articles =>
    rw [get_trending_news] at hm
    by_cases hs : status = 200
    · rw [if_pos hs] at hm
      have hm2 := List.mem_of_mem_take hm
      obtain ⟨a, ha, rfl⟩ := List.mem_map.1 hm2
      have hf := (List.mem_filter.1 ha).2
      have hft : a.title.isEmpty = false ∧ a.description.isEmpty = false := by
        constructor
        · cases h1 : a.title.isEmpty
          · rfl
          · rw [h1] at hf; simp at hf
        · cases h1 : a.description.isEmpty
          · rfl
          · rw [h1] at hf; simp at hf
      constructor
      · show a.title ≠ []
        intro h1
        rw [h1] at hft
        simp at hft
      · show a.description ≠ []
        intro h1
        rw [h1] at hft
        simp at hft
    · rw [if_neg hs] at hm
      exact absurd hm (List.not_mem_nil _)

/-- Witness for `get_trending_news_nonempty_fields` at a concrete 200
response with one article. -/
theorem get_trending_news_nonempty_fields_witness :
    (mkNewsItem [] ⟨"T".toList, "D".toList, [], []⟩).title ≠ [] ∧
    (mkNewsItem [] ⟨"T".toList, "D".toList, [], []⟩).description ≠ [] :=
  get_trending_news_nonempty_fields 5 []
    (.resp 200 [⟨"T".toList, "D".toList, [], []⟩]) _ (by decide)

/-! ### Claim C7 (Topic Extractor fallback) -/

/-- Claim C7, counterexample: the claim's "otherwise" branch fails.  The
title `Ab cd` does contain a capitalized word (the code's own pattern 1
finds `Ab`), yet `extract_topics` returns `GeneralNews`, which is not a
space-join of `#Word` tokens, because the only topic found is filtered out
by the length check (len > 2). -/
theorem extract_topics_otherwise_cex :
    extract_topics "Ab cd".toList [] = "GeneralNews".toList ∧
    capMatches none ("Ab cd".toList ++ ' ' :: ([] : List Char)) =
      ["Ab".toList] ∧
    ∀ hs : List (List Char), (∀ h ∈ hs, ∃ w, h = '#' :: w) →
      joinSp hs ≠ "GeneralNews".toList := by
  refine ⟨by decide, by decide, ?_⟩
  intro hs hshape
  cases hs with
  | nil => decide
  | cons h t =>
    obtain ⟨w, rfl⟩ := hshape h (List.mem_cons_self _ _)
    cases t with
    | nil =>
      intro hEq
      rw [joinSp] at hEq
      injection hEq with h1 _
      exact absurd h1 (by decide)
    | cons h2 t2 =>
      intro hEq
      rw [joinSp, List.cons_append] at hEq
      injection hEq with h1 _
      exact absurd h1 (by decide)

/-- Claim C7, amended: with no capitalized word in title and description
(no uppercase letter at all), `extract_topics` returns exactly
`GeneralNews`; and whenever the extracted hashtag list is nonempty (at
least one matched topic longer than 2 characters), it returns the
space-join of that list, whose tokens are all of the form `#Word` with
`Word` a capitalized alphabetic word longer than 2 characters.  (Inputs
whose capitalized words are all of length at most 2 also fall back to
`GeneralNews`.) -/
theorem extract_topics_cases (t d : List Char) :
    ((∀ c ∈ t, isUpperCh c = false) → (∀ c ∈ d, isUpperCh c = false) →
        extract_topics t d = "GeneralNews".toList) ∧
    (extract_topics t d ≠ "GeneralNews".toList →
        extract_topics t d = joinSp (hashtagList t d) ∧
        hashtagList t d ≠ [] ∧
        ∀ h ∈ hashtagList t d, ∃ c w, h = '#' :: c :: w ∧ isUpperCh c = true ∧
          (∀ a ∈ w, isAlphaCh a = true) ∧ 2 < (c :: w).length) := by
  constructor
  · intro ht hd
    rw [extract_topics, hashtagList_eq_nil ht hd]
  · intro hne
    cases hh : hashtagList t d with
    | nil =>
      rw [extract_topics, hh] at hne
      exact absurd rfl hne
    | cons h hs =>
      refine ⟨by simp only [extract_topics, hh], List.cons_ne_nil _ _, ?_⟩
      intro h0 hh0
      exact hashtagList_shape (show h0 ∈ hashtagList t d by rw [hh]; exact hh0)

/-- Witness for `extract_topics_cases`: the fallback branch at an
all-lowercase input, and the join branch at the NASA headline. -/
theorem extract_topics_cases_witness :
    extract_topics "all lower case".toList "no caps here".toList =
      "GeneralNews".toList ∧
    extract_topics "NASA Confirms Water on Mars".toList [] =
      joinSp (hashtagList "NASA Confirms Water on Mars".toList []) :=
  ⟨(extract_topics_cases _ _).1 (by decide) (by decide),
   ((extract_topics_cases _ _).2 (by decide)).1⟩

/-! ### Claim C8 (Topic Extractor on the NASA headline) -/

/-- Claim C8: on title `NASA Confirms Water on Mars` with empty
description, the extracted hashtag list contains `#NASA` and `#Mars`; and
for every input, every returned hashtag token is `#` followed by a word of
length strictly greater than 2. -/
theorem extract_topics_nasa_mars :
    "#NASA".toList ∈ hashtagList "NASA Confirms Water on Mars".toList [] ∧
    "#Mars".toList ∈ hashtagList "NASA Confirms Water on Mars".toList [] ∧
    ∀ (t d h : List Char), h ∈ hashtagList t d →
      ∃ w, h = '#' :: w ∧ 2 < w.length := by
  refine ⟨by decide, by decide, ?_⟩
  intro t d h hh
  obtain ⟨c, w, rfl, _, _, hlen⟩ := hashtagList_shape hh
  exact ⟨c :: w, rfl, hlen⟩

/-- Witness for `extract_topics_nasa_mars`: its universally quantified part
applied to the token `#NASA` produced for the NASA headline. -/
theorem extract_topics_nasa_mars_witness :
    ∃ w, "#NASA".toList = '#' :: w ∧ 2 < w.length :=
  extract_topics_nasa_mars.2.2 _ _ _ extract_topics_nasa_mars.1

/-! ### Claim C9 (scheduler isolation) -/

/-- A scheduled invocation whose generation backend raises. -/
def genErrorInv : Invocation :=
  { initErr := none
    env :=
      { fetch := .resp 200 [⟨"T".toList, "D".toList, "u".toList, "p".toList⟩]
        pickIdx := 0
        llm := .error "boom".toList
        postB := fun t => .ok t
        ts := [] } }

/-- A scheduled invocation whose backends all succeed. -/
def successInv : Invocation :=
  { initErr := none
    env :=
      { fetch := .resp 200 [⟨"T".toList, "D".toList, "u".toList, "p".toList⟩]
        pickIdx := 0
        llm := .ok (.obj "hello".toList)
        postB := fun t => .ok t
        ts := [] } }

/-- Claim C9: the scheduler loop runs every scheduled invocation: the trace
has one log line per invocation, invocation `i`'s result depends only on
its own environment (`run_bot` is total, every exception being caught and
logged at its boundary), and concretely a generation-backend exception in
one invocation leaves the next invocation running and succeeding. -/
theorem scheduler_runs_all :
    (∀ invs : List Invocation, (main invs).length = invs.length) ∧
    (∀ (invs : List Invocation) (i : Nat),
        (main invs)[i]? = (invs[i]?).map run_bot) ∧
    main [genErrorInv, successInv] =
      ["Scheduled execution failed: boom".toList,
       "Next tweet will be in 40 minutes...".toList] := by
  refine ⟨fun invs => List.length_map .., fun invs i => List.getElem?_map .., ?_⟩
  decide

end ZappoBot
